import Mathlib

/-!
Verification of the bounded tool-relevance filter `filter_relevant_tools`
from `src/app2.py` (lines 320-511).

The Python function is shallowly embedded below:
* strings are Lean `String`s; Python substring containment `a in b` is
  `strIn a b`; `str.lower()` is `lowerStr` (ASCII case mapping, which is what
  the tool names, descriptions and tables in the source use);
  `str.split()` with no argument is `splitWs` (split on whitespace runs,
  dropping empty tokens);
* a catalog entry (a Python dict with optional "name" / "description" keys and
  an opaque "inputSchema" payload) is the structure `Tool`; `d.get(k, "")` is
  `Option.getD`;
* CPython `list.sort(reverse=True, key=lambda x: x[0])` is a stable sort
  keyed on the first component; any stable descending sort computes the same
  list, and it is embedded as the stable insertion sort `sortDescBy`;
* Python slicing `xs[:k]` on an `int` `k` (including `k < 0`) is `pyTake`.
-/

namespace ToolFilter

/-- Python whitespace characters recognised by `str.split()` (ASCII range). -/
def pyIsSpace (c : Char) : Bool :=
  c = ' ' || c = '\t' || c = '\n' || c = '\r' || c = '\x0b' || c = '\x0c'

/-- Needle is a leading segment of the haystack (both as character lists). -/
def strHasPre : List Char → List Char → Bool
  | [], _ => true
  | _ :: _, [] => false
  | a :: n, b :: h => a = b && strHasPre n h

/-- Python substring containment on character lists: the needle occurs
contiguously somewhere in the haystack (the empty needle always occurs). -/
def strContains : List Char → List Char → Bool
  | n, [] => n.isEmpty
  | n, b :: h => strHasPre n (b :: h) || strContains n h

/-- Python `needle in haystack` for strings. -/
def strIn (needle haystack : String) : Bool :=
  strContains needle.data haystack.data

/-- Python `str.lower()` (ASCII case mapping). -/
def lowerStr (s : String) : String :=
  String.mk (s.data.map Char.toLower)

/-- Worker for `splitWs`: `acc` holds the current token, reversed. -/
def splitWsAux : List Char → List Char → List String
  | acc, [] => if acc.isEmpty then [] else [String.mk acc.reverse]
  | acc, c :: cs =>
    if pyIsSpace c then
      if acc.isEmpty then splitWsAux [] cs
      else String.mk acc.reverse :: splitWsAux [] cs
    else splitWsAux (c :: acc) cs

/-- Python `str.split()` with no separator: split on whitespace runs,
producing no empty tokens. -/
def splitWs (s : String) : List String :=
  splitWsAux [] s.data

/-- A catalog entry as the filter sees it: a record with optional `name` and
`description` fields (`tool.get("name", "")` in the source) and an opaque
`inputSchema` payload that the filter never inspects. -/
structure Tool where
  name : Option String
  description : Option String
  schema : Nat
deriving DecidableEq

/-- Category-to-trigger-keyword table, `src/app2.py` lines 373-439. -/
def category_keywords : List (String × List String) :=
  [("device",
     ["device", "firmware", "vdom", "ha", "hardware", "model",
      "cluster", "revision", "fortigate", "fgt"]),
   ("policy",
     ["policy", "firewall", "rule", "nat", "snat", "dnat",
      "package", "install", "central"]),
   ("object",
     ["address", "service", "zone", "vip", "pool", "schedule",
      "wildcard", "fqdn", "geography"]),
   ("provision",
     ["template", "provision", "profile", "cli template",
      "system template", "certificate"]),
   ("monitor",
     ["monitor", "status", "log", "statistic", "health",
      "task", "connectivity", "performance"]),
   ("adom",
     ["adom", "workspace", "revision", "lock", "commit",
      "assignment", "clone"]),
   ("security",
     ["web filter", "ips", "antivirus", "dlp",
      "application control", "waf", "email filter"]),
   ("vpn",
     ["vpn", "ipsec", "ssl-vpn", "tunnel", "phase1", "phase2",
      "concentrator", "forticlient"]),
   ("sdwan",
     ["sd-wan", "sdwan", "wan", "health check", "sla", "link"]),
   ("fortiap", ["fortiap", "wtp", "wireless", "wifi", "ssid"]),
   ("fortiswitch", ["fortiswitch", "switch", "port"]),
   ("fortiextender", ["fortiextender", "extender", "lte"]),
   ("connector", ["connector", "fabric", "aws", "azure", "vmware", "sdn"]),
   ("script", ["script", "cli script", "execute", "run"]),
   ("fortiguard", ["fortiguard", "update", "contract", "threat", "database"]),
   ("internet_service", ["internet service", "cloud service", "saas"]),
   ("installation", ["install", "deploy", "push", "preview", "validate"])]

/-- Operation-class synonym table, `src/app2.py` lines 471-478 (hoisted out of
the per-tool loop; the source rebuilds the identical literal each iteration). -/
def operation_types : List (String × List String) :=
  [("list", ["list", "get", "show", "view", "retrieve"]),
   ("create", ["create", "add", "new"]),
   ("update", ["update", "modify", "edit", "set", "change"]),
   ("delete", ["delete", "remove"]),
   ("install", ["install", "deploy", "push"]),
   ("execute", ["execute", "run"])]

/-- High-priority entity list, `src/app2.py` lines 486-489 (hoisted likewise). -/
def high_priority_entities : List String :=
  ["device", "policy", "firewall", "address", "service",
   "adom", "vdom", "template", "vpn", "sdwan", "ha", "cluster"]

/-- The categories a query activates, `src/app2.py` lines 442-445.  The source
collects the category names into a Python `set`; since the dict keys are
distinct, that set holds exactly the names kept by this filter. -/
def detectedCategories (ql : String) : List String :=
  (category_keywords.filter (fun p => p.2.any (fun kw => strIn kw ql))).map
    (fun p => p.1)

/-- Score of one tool, `src/app2.py` lines 451-493.  `ql` is the lowercased
query and `kws` its whitespace tokens (computed once per call at lines
368-369).  The source iterates the *set* of detected category names and looks
each name up in the dict; summation is order-independent, so iterating the
active table rows in table order yields the same score. -/
def scoreTool (ql : String) (kws : List String) (t : Tool) : Nat :=
  let tool_name := lowerStr (t.name.getD "")
  let tool_desc := lowerStr (t.description.getD "")
  let s1 :=
    (category_keywords.filter (fun p => p.2.any (fun kw => strIn kw ql))).foldl
      (fun s p =>
        let s' := if p.2.any (fun kw => strIn kw tool_name) then s + 15 else s
        if p.2.any (fun kw => strIn kw tool_desc) then s' + 5 else s') 0
  let s2 :=
    kws.foldl
      (fun s keyword =>
        if 3 ≤ keyword.length then
          let s' := if strIn keyword tool_name then s + 10 else s
          if strIn keyword tool_desc then s' + 3 else s'
        else s) s1
  let s3 :=
    operation_types.foldl
      (fun s p =>
        if p.2.any (fun op => strIn op ql) then
          if p.2.any (fun op => strIn op tool_name) then s + 8 else s
        else s) s2
  high_priority_entities.foldl
    (fun s entity =>
      if strIn entity ql && strIn entity tool_name then s + 12 else s) s3

/-- Score of a tool against a raw query: the source computes
`query_lower = query.lower()` and `keywords = query_lower.split()` once
(lines 368-369) and scores each tool with them. -/
def toolScore (q : String) (t : Tool) : Nat :=
  scoreTool (lowerStr q) (splitWs (lowerStr q)) t

/-- The scored candidate list, `src/app2.py` lines 448-497: one `(score, tool)`
pair per catalog entry whose score is positive, in catalog order. -/
def scoredToolsList (q : String) (tools : List Tool) : List (Nat × Tool) :=
  let ql := lowerStr q
  let kws := splitWs ql
  tools.filterMap (fun t =>
    let sc := scoreTool ql kws t
    if 0 < sc then some (sc, t) else none)

/-- Insert into a descending-sorted list, keeping the inserted element before
every already-present element of equal key (stability). -/
def insertDescBy (key : α → Nat) (x : α) : List α → List α
  | [] => [x]
  | y :: ys => if key x < key y then y :: insertDescBy key x ys else x :: y :: ys

/-- Stable descending sort by a `Nat` key.  `scored_tools.sort(reverse=True,
key=lambda x: x[0])` at `src/app2.py` line 500 is CPython's stable sort with
`reverse=True`, which also preserves the order of equal keys; every stable
descending sort computes the same list, realised here by insertion sort. -/
def sortDescBy (key : α → Nat) : List α → List α
  | [] => []
  | x :: xs => insertDescBy key x (sortDescBy key xs)

/-- Python `xs[:k]` for an `int` `k`: for `0 ≤ k` the first `k` elements; for
`k < 0` everything but the last `|k|` elements (clamped at zero). -/
def pyTake (k : Int) (xs : List α) : List α :=
  if 0 ≤ k then xs.take k.toNat
  else xs.take ((xs.length : Int) + k).toNat

/-- The fallback predicate, `src/app2.py` lines 504-507: the tool's (missing
fields read as "") lowercased name contains "list" or "get". -/
def fallbackPred (t : Tool) : Bool :=
  ["list", "get"].any (fun op => strIn op (lowerStr (t.name.getD "")))

/-- The filter, `src/app2.py` lines 320-511.  `max_tools` is a Python `int`,
modelled as `Int` (the source never validates it).  The source sorts
`scored_tools` in place and then tests `if not scored_tools:`; in-place
sorting preserves emptiness, so the branch is taken exactly when the unsorted
scored list is empty. -/
def filter_relevant_tools (query : String) (tools : List Tool)
    (max_tools : Int) : List Tool :=
  let scored := scoredToolsList query tools
  let sorted := sortDescBy (fun p => p.1) scored
  if scored.isEmpty then
    pyTake max_tools (tools.filter fallbackPred)
  else
    (pyTake max_tools sorted).map (fun p => p.2)

/-! ## Python slicing -/

theorem pyTake_eq_take {α : Type} (k : Int) (hk : 0 ≤ k) (xs : List α) :
    pyTake k xs = xs.take k.toNat := by
  unfold pyTake
  rw [if_pos hk]

theorem pyTake_zero {α : Type} (xs : List α) : pyTake 0 xs = [] := by
  rw [pyTake_eq_take 0 (le_refl 0) xs]
  rfl

theorem pyTake_nil {α : Type} (k : Int) : pyTake k ([] : List α) = [] := by
  unfold pyTake
  split <;> simp

theorem pyTake_sublist {α : Type} (k : Int) (xs : List α) :
    (pyTake k xs).Sublist xs := by
  unfold pyTake
  split <;> exact List.take_sublist _ _

theorem length_pyTake_of_nonneg {α : Type} (k : Int) (hk : 0 ≤ k)
    (xs : List α) : (pyTake k xs).length = min k.toNat xs.length := by
  rw [pyTake_eq_take k hk, List.length_take]

theorem pyTake_map {α β : Type} (k : Int) (f : α → β) (xs : List α) :
    pyTake k (xs.map f) = (pyTake k xs).map f := by
  unfold pyTake
  rw [List.length_map]
  split <;> rw [List.map_take]

theorem pyTake_cons_of_one_le {α : Type} {k : Int} (hk : 1 ≤ k) (x : α)
    (xs : List α) : pyTake k (x :: xs) = x :: (x :: xs).tail.take (k.toNat - 1) := by
  rw [pyTake_eq_take k (le_trans (by norm_num) hk)]
  obtain ⟨m, hm⟩ : ∃ m, k.toNat = m + 1 := by
    have : 1 ≤ k.toNat := by omega
    exact ⟨k.toNat - 1, by omega⟩
  rw [hm]
  simp

theorem mem_pyTake_head {α : Type} {k : Int} (hk : 1 ≤ k) (x : α)
    (xs : List α) : x ∈ pyTake k (x :: xs) := by
  rw [pyTake_cons_of_one_le hk]
  exact List.mem_cons_self _ _

theorem pyTake_ne_nil {α : Type} {k : Int} {xs : List α} (hk : 1 ≤ k)
    (hxs : xs ≠ []) : pyTake k xs ≠ [] := by
  cases xs with
  | nil => exact absurd rfl hxs
  | cons x l =>
    rw [pyTake_cons_of_one_le hk]
    exact List.cons_ne_nil _ _

/-! ## The score as the claimed sum of independent additive contributions -/

/-- Contribution of one active category: +15 on a trigger keyword in the
lowercased name, +5 on one in the lowercased description. -/
def catContrib (name desc : String) (p : String × List String) : Nat :=
  (if p.2.any (fun kw => strIn kw name) then 15 else 0) +
  (if p.2.any (fun kw => strIn kw desc) then 5 else 0)

/-- Contribution of one query token: for tokens of length at least 3, +10 on
a name hit and +3 on a description hit; shorter tokens contribute nothing. -/
def tokContrib (name desc : String) (tok : String) : Nat :=
  if 3 ≤ tok.length then
    (if strIn tok name then 10 else 0) + (if strIn tok desc then 3 else 0)
  else 0

/-- Contribution of one operation class: +8 when a synonym occurs in the
query and a synonym occurs in the tool name. -/
def opContrib (ql name : String) (p : String × List String) : Nat :=
  if p.2.any (fun op => strIn op ql) then
    if p.2.any (fun op => strIn op name) then 8 else 0
  else 0

/-- Contribution of one high-priority entity: +12 when it occurs in both the
query and the tool name. -/
def entContrib (ql name : String) (e : String) : Nat :=
  if strIn e ql && strIn e name then 12 else 0

/-- The score as the specification states it: a sum of independent additive
contributions over active categories, query tokens, operation classes and
high-priority entities. -/
def specScore (ql : String) (kws : List String) (t : Tool) : Nat :=
  let name := lowerStr (t.name.getD "")
  let desc := lowerStr (t.description.getD "")
  ((category_keywords.filter (fun p => p.2.any (fun kw => strIn kw ql))).map
      (catContrib name desc)).sum
    + (kws.map (tokContrib name desc)).sum
    + (operation_types.map (opContrib ql name)).sum
    + (high_priority_entities.map (entContrib ql name)).sum

theorem catFold (name desc : String) (l : List (String × List String))
    (init : Nat) :
    l.foldl (fun s p =>
        let s' := if p.2.any (fun kw => strIn kw name) then s + 15 else s
        if p.2.any (fun kw => strIn kw desc) then s' + 5 else s') init
      = init + (l.map (catContrib name desc)).sum := by
  induction l generalizing init with
  | nil => simp
  | cons p l ih =>
    simp only [List.foldl_cons, List.map_cons, List.sum_cons, ih]
    simp only [catContrib]
    cases hn : p.2.any (fun kw => strIn kw name) <;>
      cases hd : p.2.any (fun kw => strIn kw desc) <;> simp <;> omega

theorem tokFold (name desc : String) (l : List String) (init : Nat) :
    l.foldl (fun s keyword =>
        if 3 ≤ keyword.length then
          let s' := if strIn keyword name then s + 10 else s
          if strIn keyword desc then s' + 3 else s'
        else s) init
      = init + (l.map (tokContrib name desc)).sum := by
  induction l generalizing init with
  | nil => simp
  | cons tok l ih =>
    simp only [List.foldl_cons, List.map_cons, List.sum_cons, ih]
    simp only [tokContrib]
    by_cases h3 : 3 ≤ tok.length
    · simp only [if_pos h3]
      cases hn : strIn tok name <;>
        cases hd : strIn tok desc <;> simp <;> omega
    · simp only [if_neg h3]
      omega

theorem opFold (ql name : String) (l : List (String × List String))
    (init : Nat) :
    l.foldl (fun s p =>
        if p.2.any (fun op => strIn op ql) then
          if p.2.any (fun op => strIn op name) then s + 8 else s
        else s) init
      = init + (l.map (opContrib ql name)).sum := by
  induction l generalizing init with
  | nil => simp
  | cons p l ih =>
    simp only [List.foldl_cons, List.map_cons, List.sum_cons, ih]
    simp only [opContrib]
    cases hq : p.2.any (fun op => strIn op ql) <;>
      cases hn : p.2.any (fun op => strIn op name) <;> simp <;> omega

theorem entFold (ql name : String) (l : List String) (init : Nat) :
    l.foldl (fun s entity =>
        if strIn entity ql && strIn entity name then s + 12 else s) init
      = init + (l.map (entContrib ql name)).sum := by
  induction l generalizing init with
  | nil => simp
  | cons e l ih =>
    simp only [List.foldl_cons, List.map_cons, List.sum_cons, ih]
    simp only [entContrib]
    cases h : (strIn e ql && strIn e name) <;> simp <;> omega

/-- The loop-computed score equals the specification's additive sum. -/
theorem scoreTool_eq_spec (ql : String) (kws : List String) (t : Tool) :
    scoreTool ql kws t = specScore ql kws t := by
  unfold scoreTool specScore
  simp only [catFold, tokFold, opFold, entFold]
  omega

/-! ## Characterising the scored candidate list -/

theorem filterMap_scored (ql : String) (kws : List String) (ts : List Tool) :
    (ts.filterMap (fun t =>
        let sc := scoreTool ql kws t
        if 0 < sc then some (sc, t) else none))
      = (ts.filter (fun t => decide (0 < scoreTool ql kws t))).map
          (fun t => (scoreTool ql kws t, t)) := by
  induction ts with
  | nil => rfl
  | cons t ts ih =>
    by_cases h : 0 < scoreTool ql kws t <;>
      simp [List.filterMap_cons, List.filter_cons, h, ih]

/-- The scored list keeps exactly the positively scored tools, in catalog
order, each paired with its score. -/
theorem scoredToolsList_eq (q : String) (tools : List Tool) :
    scoredToolsList q tools
      = (tools.filter (fun t => decide (0 < toolScore q t))).map
          (fun t => (toolScore q t, t)) := by
  unfold scoredToolsList toolScore
  exact filterMap_scored _ _ tools

theorem scored_length_le (q : String) (tools : List Tool) :
    (scoredToolsList q tools).length ≤ tools.length := by
  unfold scoredToolsList
  exact List.length_filterMap_le _ _

theorem scored_nil_iff (q : String) (tools : List Tool) :
    scoredToolsList q tools = [] ↔ ∀ t ∈ tools, toolScore q t = 0 := by
  rw [scoredToolsList_eq, List.map_eq_nil_iff, List.filter_eq_nil_iff]
  constructor
  · intro h t ht
    have := h t ht
    simp at this
    omega
  · intro h t ht
    simp [h t ht]

theorem map_snd_scored (q : String) (tools : List Tool) :
    (scoredToolsList q tools).map (fun p => p.2)
      = tools.filter (fun t => decide (0 < toolScore q t)) := by
  rw [scoredToolsList_eq, List.map_map]
  exact List.map_id _

/-! ## The stable descending sort -/

theorem insertDescBy_perm {α : Type} (key : α → Nat) (x : α) (l : List α) :
    (insertDescBy key x l).Perm (x :: l) := by
  induction l with
  | nil => exact List.Perm.refl _
  | cons y ys ih =>
    unfold insertDescBy
    by_cases h : key x < key y
    · rw [if_pos h]
      exact (ih.cons y).trans (List.Perm.swap x y ys)
    · rw [if_neg h]

theorem sortDescBy_perm {α : Type} (key : α → Nat) (l : List α) :
    (sortDescBy key l).Perm l := by
  induction l with
  | nil => exact List.Perm.refl _
  | cons x xs ih =>
    exact (insertDescBy_perm key x _).trans (ih.cons x)

theorem mem_sortDescBy {α : Type} {key : α → Nat} {l : List α} {x : α}
    (h : x ∈ sortDescBy key l) : x ∈ l :=
  (sortDescBy_perm key l).mem_iff.mp h

theorem length_sortDescBy {α : Type} (key : α → Nat) (l : List α) :
    (sortDescBy key l).length = l.length :=
  (sortDescBy_perm key l).length_eq

/-! ## Index-tracking mirror of the computation

`scoredIdxAux` is `scoredToolsList` with the original catalog position of
each tool carried along; `fbIdxAux` is the fallback filter with positions.
They exist only to state and prove ordering and stability properties; the
projections below identify them with the embedded source computation. -/

def scoredIdxAux (ql : String) (kws : List String) :
    Nat → List Tool → List (Nat × Nat × Tool)
  | _, [] => []
  | i, t :: ts =>
    let sc := scoreTool ql kws t
    if 0 < sc then (sc, i, t) :: scoredIdxAux ql kws (i + 1) ts
    else scoredIdxAux ql kws (i + 1) ts

def scoredIdx (q : String) (tools : List Tool) : List (Nat × Nat × Tool) :=
  scoredIdxAux (lowerStr q) (splitWs (lowerStr q)) 0 tools

def fbIdxAux : Nat → List Tool → List (Nat × Tool)
  | _, [] => []
  | i, t :: ts =>
    if fallbackPred t then (i, t) :: fbIdxAux (i + 1) ts
    else fbIdxAux (i + 1) ts

/-- Index-tracking mirror of `filter_relevant_tools`: same branches, same
truncation, each surviving tool paired with its position in the catalog. -/
def filterIdx (q : String) (tools : List Tool) (k : Int) :
    List (Nat × Tool) :=
  let scored := scoredIdx q tools
  if scored.isEmpty then pyTake k (fbIdxAux 0 tools)
  else (pyTake k (sortDescBy (fun p => p.1) scored)).map
    (fun p => (p.2.1, p.2.2))

/-- Strict catalog-position order on index-carrying scored entries. -/
def RIdx (a b : Nat × Nat × Tool) : Prop := a.2.1 < b.2.1

/-- The order realised by the stable descending sort: strictly larger score
first, and among equal scores the smaller catalog position first. -/
def RLex (a b : Nat × Nat × Tool) : Prop :=
  b.1 < a.1 ∨ (a.1 = b.1 ∧ a.2.1 < b.2.1)

theorem scoredIdxAux_map (ql : String) (kws : List String) (ts : List Tool) :
    ∀ i : Nat,
      (scoredIdxAux ql kws i ts).map (fun p => (p.1, p.2.2))
        = ts.filterMap (fun t =>
            let sc := scoreTool ql kws t
            if 0 < sc then some (sc, t) else none) := by
  induction ts with
  | nil => intro i; rfl
  | cons t ts ih =>
    intro i
    by_cases h : 0 < scoreTool ql kws t <;>
      simp [scoredIdxAux, List.filterMap_cons, h, ih]

theorem scoredIdx_map (q : String) (tools : List Tool) :
    (scoredIdx q tools).map (fun p => (p.1, p.2.2))
      = scoredToolsList q tools := by
  unfold scoredIdx scoredToolsList
  exact scoredIdxAux_map _ _ tools 0

theorem scoredIdx_nil_iff (q : String) (tools : List Tool) :
    scoredIdx q tools = [] ↔ scoredToolsList q tools = [] := by
  rw [← scoredIdx_map, List.map_eq_nil_iff]

theorem scoredIdxAux_inv (ql : String) (kws : List String) (ts : List Tool) :
    ∀ (i : Nat) (p : Nat × Nat × Tool), p ∈ scoredIdxAux ql kws i ts →
      p.1 = scoreTool ql kws p.2.2 ∧ 0 < p.1 ∧ i ≤ p.2.1 ∧
        ts[p.2.1 - i]? = some p.2.2 := by
  induction ts with
  | nil => intro i p hp; exact absurd hp (List.not_mem_nil p)
  | cons t ts ih =>
    intro i p hp
    unfold scoredIdxAux at hp
    by_cases h : 0 < scoreTool ql kws t
    · rw [if_pos h] at hp
      rcases List.mem_cons.mp hp with rfl | hp'
      · refine ⟨rfl, h, Nat.le_refl i, ?_⟩
        simp
      · obtain ⟨h1, h2, h3, h4⟩ := ih (i + 1) p hp'
        refine ⟨h1, h2, by omega, ?_⟩
        have hsub : p.2.1 - i = (p.2.1 - (i + 1)) + 1 := by omega
        rw [hsub, List.getElem?_cons_succ]
        exact h4
    · rw [if_neg h] at hp
      obtain ⟨h1, h2, h3, h4⟩ := ih (i + 1) p hp
      refine ⟨h1, h2, by omega, ?_⟩
      have hsub : p.2.1 - i = (p.2.1 - (i + 1)) + 1 := by omega
      rw [hsub, List.getElem?_cons_succ]
      exact h4

theorem scoredIdx_inv (q : String) (tools : List Tool) (p : Nat × Nat × Tool)
    (hp : p ∈ scoredIdx q tools) :
    p.1 = toolScore q p.2.2 ∧ 0 < p.1 ∧ tools[p.2.1]? = some p.2.2 := by
  obtain ⟨h1, h2, _, h4⟩ := scoredIdxAux_inv _ _ tools 0 p hp
  rw [Nat.sub_zero] at h4
  exact ⟨h1, h2, h4⟩

theorem scoredIdxAux_pairwise (ql : String) (kws : List String)
    (ts : List Tool) : ∀ i : Nat, (scoredIdxAux ql kws i ts).Pairwise RIdx := by
  induction ts with
  | nil => intro i; exact List.Pairwise.nil
  | cons t ts ih =>
    intro i
    unfold scoredIdxAux
    by_cases h : 0 < scoreTool ql kws t
    · rw [if_pos h, List.pairwise_cons]
      refine ⟨fun y hy => ?_, ih (i + 1)⟩
      have := (scoredIdxAux_inv ql kws ts (i + 1) y hy).2.2.1
      show i < y.2.1
      omega
    · rw [if_neg h]
      exact ih (i + 1)

theorem mem_scoredIdxAux_of (ql : String) (kws : List String) :
    ∀ (ts : List Tool) (j i : Nat) (t : Tool), ts[i]? = some t →
      0 < scoreTool ql kws t →
      (scoreTool ql kws t, j + i, t) ∈ scoredIdxAux ql kws j ts := by
  intro ts
  induction ts with
  | nil => intro j i t ht; simp at ht
  | cons t' ts ih =>
    intro j i t ht hpos
    cases i with
    | zero =>
      rw [List.getElem?_cons_zero] at ht
      injection ht with ht
      subst ht
      unfold scoredIdxAux
      rw [if_pos hpos]
      exact List.mem_cons_self _ _
    | succ i =>
      rw [List.getElem?_cons_succ] at ht
      have := ih (j + 1) i t ht hpos
      have harith : j + (i + 1) = (j + 1) + i := by omega
      rw [harith]
      unfold scoredIdxAux
      by_cases h : 0 < scoreTool ql kws t'
      · rw [if_pos h]
        exact List.mem_cons_of_mem _ this
      · rw [if_neg h]
        exact this

theorem mem_insertDescBy {α : Type} {key : α → Nat} {x z : α} {l : List α}
    (h : z ∈ insertDescBy key x l) : z = x ∨ z ∈ l := by
  have := (insertDescBy_perm key x l).mem_iff.mp h
  exact List.mem_cons.mp this

/-- Inserting an entry whose catalog position lies below every position in a
lexicographically sorted list keeps the list lexicographically sorted: the
entry lands after the strictly larger scores and before every equal score. -/
theorem pairwise_insert_lex {x : Nat × Nat × Tool}
    {l : List (Nat × Nat × Tool)} (hl : l.Pairwise RLex)
    (hx : ∀ y ∈ l, x.2.1 < y.2.1) :
    (insertDescBy (fun p => p.1) x l).Pairwise RLex := by
  induction l with
  | nil =>
    unfold insertDescBy
    exact List.pairwise_singleton _ _
  | cons y ys ih =>
    rw [List.pairwise_cons] at hl
    obtain ⟨hy, hys⟩ := hl
    unfold insertDescBy
    by_cases h : x.1 < y.1
    · rw [if_pos h, List.pairwise_cons]
      constructor
      · intro z hz
        rcases mem_insertDescBy hz with rfl | hz'
        · exact Or.inl h
        · exact hy z hz'
      · exact ih hys (fun y' hy' => hx y' (List.mem_cons_of_mem _ hy'))
    · rw [if_neg h, List.pairwise_cons]
      have hyx : y.1 ≤ x.1 := Nat.le_of_not_lt h
      constructor
      · intro z hz
        rcases List.mem_cons.mp hz with rfl | hz'
        · rcases Nat.lt_or_ge z.1 x.1 with hlt | hge
          · exact Or.inl hlt
          · exact Or.inr ⟨Nat.le_antisymm hge hyx, hx z (List.mem_cons_self _ _)⟩
        · rcases hy z hz' with h1 | ⟨h2, _⟩
          · exact Or.inl (Nat.lt_of_lt_of_le h1 hyx)
          · rcases Nat.lt_or_ge z.1 x.1 with hlt | hge
            · exact Or.inl hlt
            · have hxz : x.1 = z.1 := Nat.le_antisymm hge (h2 ▸ hyx)
              exact Or.inr ⟨hxz, hx z (List.mem_cons_of_mem _ hz')⟩
      · exact List.Pairwise.cons hy hys

/-- Sorting a list whose catalog positions strictly increase produces a
lexicographically sorted list: scores descend, and equal scores keep their
catalog order (stability). -/
theorem pairwise_sort_lex {l : List (Nat × Nat × Tool)}
    (h : l.Pairwise RIdx) :
    (sortDescBy (fun p => p.1) l).Pairwise RLex := by
  induction l with
  | nil => exact List.Pairwise.nil
  | cons x xs ih =>
    rw [List.pairwise_cons] at h
    exact pairwise_insert_lex (ih h.2)
      (fun y hy => h.1 y (mem_sortDescBy hy))

theorem insertDescBy_map_fst (x : Nat × Nat × Tool)
    (l : List (Nat × Nat × Tool)) :
    insertDescBy (fun p : Nat × Tool => p.1) (x.1, x.2.2)
        (l.map (fun p => (p.1, p.2.2)))
      = (insertDescBy (fun p => p.1) x l).map (fun p => (p.1, p.2.2)) := by
  induction l with
  | nil => rfl
  | cons y ys ih =>
    unfold insertDescBy
    by_cases h : x.1 < y.1 <;> simp [h, ih]

theorem sortDescBy_map_fst (l : List (Nat × Nat × Tool)) :
    sortDescBy (fun p : Nat × Tool => p.1) (l.map (fun p => (p.1, p.2.2)))
      = (sortDescBy (fun p => p.1) l).map (fun p => (p.1, p.2.2)) := by
  induction l with
  | nil => rfl
  | cons x xs ih =>
    show insertDescBy (fun p : Nat × Tool => p.1) (x.1, x.2.2)
        (sortDescBy (fun p : Nat × Tool => p.1)
          (xs.map (fun p => (p.1, p.2.2))))
      = (insertDescBy (fun p => p.1) x (sortDescBy (fun p => p.1) xs)).map
          (fun p => (p.1, p.2.2))
    rw [ih]
    exact insertDescBy_map_fst x _

/-! ## The fallback, with positions -/

theorem fbIdxAux_map (ts : List Tool) : ∀ i : Nat,
    (fbIdxAux i ts).map (fun p => p.2) = ts.filter fallbackPred := by
  induction ts with
  | nil => intro i; rfl
  | cons t ts ih =>
    intro i
    by_cases h : fallbackPred t <;>
      simp [fbIdxAux, List.filter_cons, h, ih]

theorem fbIdxAux_inv (ts : List Tool) : ∀ (i : Nat) (p : Nat × Tool),
    p ∈ fbIdxAux i ts →
      i ≤ p.1 ∧ ts[p.1 - i]? = some p.2 ∧ fallbackPred p.2 = true := by
  induction ts with
  | nil => intro i p hp; exact absurd hp (List.not_mem_nil p)
  | cons t ts ih =>
    intro i p hp
    unfold fbIdxAux at hp
    by_cases h : fallbackPred t
    · rw [if_pos h] at hp
      rcases List.mem_cons.mp hp with rfl | hp'
      · exact ⟨Nat.le_refl i, by simp, h⟩
      · obtain ⟨h1, h2, h3⟩ := ih (i + 1) p hp'
        refine ⟨by omega, ?_, h3⟩
        have hsub : p.1 - i = (p.1 - (i + 1)) + 1 := by omega
        rw [hsub, List.getElem?_cons_succ]
        exact h2
    · rw [if_neg h] at hp
      obtain ⟨h1, h2, h3⟩ := ih (i + 1) p hp
      refine ⟨by omega, ?_, h3⟩
      have hsub : p.1 - i = (p.1 - (i + 1)) + 1 := by omega
      rw [hsub, List.getElem?_cons_succ]
      exact h2

theorem fbIdxAux_pairwise (ts : List Tool) : ∀ i : Nat,
    (fbIdxAux i ts).Pairwise (fun a b => a.1 < b.1) := by
  induction ts with
  | nil => intro i; exact List.Pairwise.nil
  | cons t ts ih =>
    intro i
    unfold fbIdxAux
    by_cases h : fallbackPred t
    · rw [if_pos h, List.pairwise_cons]
      refine ⟨fun y hy => ?_, ih (i + 1)⟩
      have := (fbIdxAux_inv ts (i + 1) y hy).1
      show i < y.1
      omega
    · rw [if_neg h]
      exact ih (i + 1)

/-! ## Branch helpers for the main function -/

theorem filter_fallback_branch {q : String} {C : List Tool} {k : Int}
    (h : scoredToolsList q C = []) :
    filter_relevant_tools q C k = pyTake k (C.filter fallbackPred) := by
  unfold filter_relevant_tools
  simp [h]

theorem filter_scored_branch {q : String} {C : List Tool} {k : Int}
    (h : scoredToolsList q C ≠ []) :
    filter_relevant_tools q C k
      = (pyTake k (sortDescBy (fun p => p.1) (scoredToolsList q C))).map
          (fun p => p.2) := by
  unfold filter_relevant_tools
  have hE : (scoredToolsList q C).isEmpty = false := by
    cases hsc : scoredToolsList q C with
    | nil => exact absurd hsc h
    | cons a as => rfl
  simp [hE]

/-- The filter output is the second projection of its index-tracking mirror. -/
theorem filter_eq_filterIdx (q : String) (C : List Tool) (k : Int) :
    filter_relevant_tools q C k = (filterIdx q C k).map (fun p => p.2) := by
  by_cases h : scoredToolsList q C = []
  · have hIdx : scoredIdx q C = [] := (scoredIdx_nil_iff q C).mpr h
    rw [filter_fallback_branch h]
    simp only [filterIdx, hIdx, List.isEmpty_nil, if_true]
    rw [← pyTake_map, fbIdxAux_map]
  · have hIdx : scoredIdx q C ≠ [] :=
      fun hc => h ((scoredIdx_nil_iff q C).mp hc)
    have hE : (scoredIdx q C).isEmpty = false := by
      cases hsc : scoredIdx q C with
      | nil => exact absurd hsc hIdx
      | cons a as => rfl
    rw [filter_scored_branch h]
    simp only [filterIdx, hE, Bool.false_eq_true, if_false]
    rw [← scoredIdx_map, sortDescBy_map_fst, pyTake_map]
    simp only [List.map_map]
    rfl

/-- Everything the filter returns is drawn from the catalog, with the right
multiplicities: the output is a sub-permutation of the input. -/
theorem filterOut_subperm (q : String) (C : List Tool) (k : Int) :
    (filter_relevant_tools q C k).Subperm C := by
  by_cases h : scoredToolsList q C = []
  · rw [filter_fallback_branch h]
    exact ((pyTake_sublist k _).trans (List.filter_sublist C)).subperm
  · rw [filter_scored_branch h]
    have h1 := (pyTake_sublist k
      (sortDescBy (fun p : Nat × Tool => p.1) (scoredToolsList q C))).map
        (fun p : Nat × Tool => p.2)
    have h2 := (sortDescBy_perm (fun p : Nat × Tool => p.1)
      (scoredToolsList q C)).map (fun p : Nat × Tool => p.2)
    have h3 : ((scoredToolsList q C).map (fun p => p.2)).Sublist C := by
      rw [map_snd_scored]
      exact List.filter_sublist C
    exact h1.subperm.trans (h2.subperm.trans h3.subperm)

/-! ## Degenerate inputs: empty query, missing fields -/

theorem cat_contrib_empty : ∀ p ∈ category_keywords, catContrib "" "" p = 0 := by
  decide

theorem op_inner_empty :
    ∀ p ∈ operation_types, p.2.any (fun op => strIn op "") = false := by
  decide

theorem ent_inner_empty :
    ∀ e ∈ high_priority_entities, strIn e "" = false := by
  decide

theorem strIn_empty_haystack {tok : String} (h : 1 ≤ tok.length) :
    strIn tok "" = false := by
  have hlen : tok.length = tok.data.length := rfl
  cases htd : tok.data with
  | nil =>
    exfalso
    rw [htd] at hlen
    simp at hlen
    omega
  | cons c cs =>
    show strContains tok.data [] = false
    rw [htd]
    rfl

theorem tokContrib_empty_strings (tok : String) : tokContrib "" "" tok = 0 := by
  unfold tokContrib
  by_cases h3 : 3 ≤ tok.length
  · rw [if_pos h3, strIn_empty_haystack (by omega)]
    rfl
  · rw [if_neg h3]

/-- A tool with neither name nor description scores zero on every query:
every contribution is gated on a keyword occurring in the empty string. -/
theorem toolScore_no_fields (q : String) (s : Nat) :
    toolScore q ⟨none, none, s⟩ = 0 := by
  rw [toolScore, scoreTool_eq_spec]
  show ((category_keywords.filter
        (fun p => p.2.any (fun kw => strIn kw (lowerStr q)))).map
          (catContrib "" "")).sum
      + ((splitWs (lowerStr q)).map (tokContrib "" "")).sum
      + (operation_types.map (opContrib (lowerStr q) "")).sum
      + (high_priority_entities.map (entContrib (lowerStr q) "")).sum = 0
  have hcat : ((category_keywords.filter
      (fun p => p.2.any (fun kw => strIn kw (lowerStr q)))).map
        (catContrib "" "")).sum = 0 := by
    refine List.sum_eq_zero ?_
    intro x hx
    obtain ⟨p, hp, rfl⟩ := List.mem_map.mp hx
    exact cat_contrib_empty p (List.mem_of_mem_filter hp)
  have htok : ((splitWs (lowerStr q)).map (tokContrib "" "")).sum = 0 := by
    refine List.sum_eq_zero ?_
    intro x hx
    obtain ⟨tok, _, rfl⟩ := List.mem_map.mp hx
    exact tokContrib_empty_strings tok
  have hop : (operation_types.map (opContrib (lowerStr q) "")).sum = 0 := by
    refine List.sum_eq_zero ?_
    intro x hx
    obtain ⟨p, hp, rfl⟩ := List.mem_map.mp hx
    simp [opContrib, op_inner_empty p hp]
  have hent : (high_priority_entities.map (entContrib (lowerStr q) "")).sum
      = 0 := by
    refine List.sum_eq_zero ?_
    intro x hx
    obtain ⟨e, he, rfl⟩ := List.mem_map.mp hx
    simp [entContrib, ent_inner_empty e he]
  omega

/-- A query token of length at least 3 occurring in the tool name forces a
positive score (the +10 keyword contribution). -/
theorem toolScore_pos_of_tok {q : String} {T : Tool} {tok : String}
    (hmem : tok ∈ splitWs (lowerStr q)) (hlen : 3 ≤ tok.length)
    (hin : strIn tok (lowerStr (T.name.getD "")) = true) :
    0 < toolScore q T := by
  rw [toolScore, scoreTool_eq_spec]
  show 0 < ((category_keywords.filter
        (fun p => p.2.any (fun kw => strIn kw (lowerStr q)))).map
          (catContrib (lowerStr (T.name.getD ""))
            (lowerStr (T.description.getD "")))).sum
      + ((splitWs (lowerStr q)).map
          (tokContrib (lowerStr (T.name.getD ""))
            (lowerStr (T.description.getD "")))).sum
      + (operation_types.map
          (opContrib (lowerStr q) (lowerStr (T.name.getD "")))).sum
      + (high_priority_entities.map
          (entContrib (lowerStr q) (lowerStr (T.name.getD "")))).sum
  have h10 : 10 ≤ tokContrib (lowerStr (T.name.getD ""))
      (lowerStr (T.description.getD "")) tok := by
    unfold tokContrib
    rw [if_pos hlen, hin]
    simp
  have hsum : tokContrib (lowerStr (T.name.getD ""))
        (lowerStr (T.description.getD "")) tok
      ≤ ((splitWs (lowerStr q)).map
          (tokContrib (lowerStr (T.name.getD ""))
            (lowerStr (T.description.getD "")))).sum :=
    List.single_le_sum (fun x _ => Nat.zero_le x) _
      (List.mem_map_of_mem _ hmem)
  omega

/-! ## The claims -/

/-- Claim C1: the score `filter_relevant_tools` assigns to a tool is the sum
of independent additive contributions — +15/+5 per active category hitting
the lowercased name/description, +10/+3 per query token of length at least 3
hitting name/description, +8 per operation class with a synonym in both the
query and the tool name, +12 per high-priority entity in both the query and
the tool name — and tools whose total score is 0 are excluded from the
scored candidate list. -/
theorem claim1_score_is_additive_sum (q : String) (C : List Tool) (t : Tool) :
    toolScore q t = specScore (lowerStr q) (splitWs (lowerStr q)) t ∧
    scoredToolsList q C
      = (C.filter (fun u => decide (0 < toolScore q u))).map
          (fun u => (toolScore q u, u)) :=
  ⟨scoreTool_eq_spec _ _ t, scoredToolsList_eq q C⟩

/-- Claim C3: for `max_results` k ≥ 0 the output length is at most
min(k, |C|); in particular k = 0 or an empty catalog gives the empty
output. -/
theorem claim3_boundedness (q : String) (C : List Tool) (k : Int)
    (hk : 0 ≤ k) :
    (filter_relevant_tools q C k).length ≤ min k.toNat C.length ∧
    (k = 0 → filter_relevant_tools q C k = []) ∧
    (C = [] → filter_relevant_tools q C k = []) := by
  refine ⟨?_, ?_, ?_⟩
  · by_cases h : scoredToolsList q C = []
    · rw [filter_fallback_branch h]
      have h1 := length_pyTake_of_nonneg k hk (C.filter fallbackPred)
      have h2 := List.length_filter_le fallbackPred C
      omega
    · rw [filter_scored_branch h, List.length_map]
      have h1 := length_pyTake_of_nonneg k hk
        (sortDescBy (fun p : Nat × Tool => p.1) (scoredToolsList q C))
      have h2 := length_sortDescBy (fun p : Nat × Tool => p.1)
        (scoredToolsList q C)
      have h3 := scored_length_le q C
      omega
  · rintro rfl
    by_cases h : scoredToolsList q C = []
    · rw [filter_fallback_branch h, pyTake_zero]
    · rw [filter_scored_branch h, pyTake_zero]
      rfl
  · rintro rfl
    have h : scoredToolsList q ([] : List Tool) = [] := rfl
    rw [filter_fallback_branch h]
    simp [pyTake_nil]

theorem claim3_boundedness_witness :
    (filter_relevant_tools "list" [⟨some "list_a", none, 0⟩] 2).length
        ≤ min (Int.toNat 2) [(⟨some "list_a", none, 0⟩ : Tool)].length ∧
    ((2 : Int) = 0 →
      filter_relevant_tools "list" [⟨some "list_a", none, 0⟩] 2 = []) ∧
    (([⟨some "list_a", none, 0⟩] : List Tool) = [] →
      filter_relevant_tools "list" [⟨some "list_a", none, 0⟩] 2 = []) :=
  claim3_boundedness "list" [⟨some "list_a", none, 0⟩] 2 (by decide)

/-- Claim C5: the empty query normalizes to no tokens, activates no
category, gives every tool score 0, and the fallback fires, returning (up to
k) the catalog tools whose name contains "list" or "get", in catalog
order. -/
theorem claim5_empty_query (C : List Tool) (k : Int) :
    splitWs (lowerStr "") = [] ∧
    detectedCategories (lowerStr "") = [] ∧
    (∀ t : Tool, toolScore "" t = 0) ∧
    filter_relevant_tools "" C k = pyTake k (C.filter fallbackPred) := by
  have hscore : ∀ t : Tool, toolScore "" t = 0 := fun t => rfl
  refine ⟨rfl, by decide, hscore, ?_⟩
  exact filter_fallback_branch ((scored_nil_iff "" C).mpr fun t _ => hscore t)

/-- Claim C7 counterexample: at `max_results` 0 and -1 the function returns
silently (the empty list, respectively Python slice semantics dropping the
last element) instead of signalling an error. -/
theorem claim7_counterexample :
    filter_relevant_tools ""
        [⟨some "list_a", none, 0⟩, ⟨some "get_b", none, 0⟩] 0 = [] ∧
    filter_relevant_tools ""
        [⟨some "list_a", none, 0⟩, ⟨some "get_b", none, 0⟩] (-1)
      = [⟨some "list_a", none, 0⟩] := by
  decide

/-- Claim C7 amended: `filter_relevant_tools` performs no validation of
`max_results`: k = 0 silently yields the empty list (and negative k applies
Python slice truncation, per the counterexample); no error is ever
signalled. -/
theorem claim7_amended_no_validation (q : String) (C : List Tool) :
    filter_relevant_tools q C 0 = [] := by
  by_cases h : scoredToolsList q C = []
  · rw [filter_fallback_branch h, pyTake_zero]
  · rw [filter_scored_branch h, pyTake_zero]
    rfl

/-- Claim C8: the filter is a pure function of its inputs; the catalog is
never mutated and the output is a sub-permutation of the input catalog —
every returned record, with its name, description and inputSchema fields, is
one of the unchanged input records, with at most the input multiplicity. -/
theorem claim8_pure_no_mutation (q : String) (C : List Tool) (k : Int) :
    (filter_relevant_tools q C k).Subperm C :=
  filterOut_subperm q C k

/-- Claim C9: every output element is (reference-)identical to some element
of the input catalog; the filter never fabricates tools. -/
theorem claim9_subset_fidelity (q : String) (C : List Tool) (k : Int)
    (t : Tool) (ht : t ∈ filter_relevant_tools q C k) : t ∈ C :=
  (filterOut_subperm q C k).subset ht

theorem claim9_subset_fidelity_witness :
    (⟨some "list_a", none, 0⟩ : Tool) ∈ [(⟨some "list_a", none, 0⟩ : Tool)] :=
  claim9_subset_fidelity "list" [⟨some "list_a", none, 0⟩] 1
    ⟨some "list_a", none, 0⟩ (by decide)

/-- Claim C10: a catalog entry lacking the name or description field is
treated as having that field empty; the call is total (never raises), an
entry missing both fields scores 0 on every query, and an entry with a
missing name never qualifies for the list/get fallback. -/
theorem claim10_missing_fields (q : String) (n d : Option String) (s : Nat) :
    toolScore q ⟨none, d, s⟩ = toolScore q ⟨some "", d, s⟩ ∧
    toolScore q ⟨n, none, s⟩ = toolScore q ⟨n, some "", s⟩ ∧
    toolScore q ⟨none, none, s⟩ = 0 ∧
    fallbackPred ⟨none, d, s⟩ = false :=
  ⟨rfl, rfl, toolScore_no_fields q s, rfl⟩

/-- Claim C4 counterexample: with the empty query every tool of the catalog
`[list_devices]` scores 0 and the catalog contains a tool whose name
contains "list", yet at `max_results` k = 0 the output is empty — the
claimed unconditional fallback non-emptiness fails for k = 0. -/
theorem claim4_counterexample :
    toolScore "" ⟨some "list_devices", none, 0⟩ = 0 ∧
    fallbackPred ⟨some "list_devices", none, 0⟩ = true ∧
    filter_relevant_tools "" [⟨some "list_devices", none, 0⟩] 0 = [] := by
  decide

/-- Claim C4 amended: if every tool scores 0, the output is the catalog-order
subsequence of tools whose lowercased name contains "list" or "get",
truncated by `max_results`; and whenever additionally k ≥ 1 and some catalog
tool satisfies the fallback predicate, the output is non-empty. -/
theorem claim4_amended_fallback (q : String) (C : List Tool) (k : Int)
    (hz : ∀ t ∈ C, toolScore q t = 0) :
    filter_relevant_tools q C k = pyTake k (C.filter fallbackPred) ∧
    (1 ≤ k → (∃ t ∈ C, fallbackPred t = true) →
      filter_relevant_tools q C k ≠ []) := by
  have hbr := filter_fallback_branch (k := k) ((scored_nil_iff q C).mpr hz)
  refine ⟨hbr, ?_⟩
  rintro hk ⟨t, ht, hfb⟩
  rw [hbr]
  exact pyTake_ne_nil hk
    (List.ne_nil_of_mem (List.mem_filter.mpr ⟨ht, hfb⟩))

theorem claim4_amended_fallback_witness :
    (filter_relevant_tools "zz" [⟨some "list_devices", none, 0⟩] 1
        = pyTake 1 (([⟨some "list_devices", none, 0⟩] : List Tool).filter
            fallbackPred)) ∧
    (1 ≤ (1 : Int) →
      (∃ t ∈ ([⟨some "list_devices", none, 0⟩] : List Tool),
        fallbackPred t = true) →
      filter_relevant_tools "zz" [⟨some "list_devices", none, 0⟩] 1 ≠ []) :=
  claim4_amended_fallback "zz" [⟨some "list_devices", none, 0⟩] 1 (by decide)

/-- Claim C2: the output of `filter_relevant_tools` is the projection of an
index-tracking run of the same computation whose entries are pairwise
ordered by strictly descending score with equal scores in strictly
increasing catalog position (stable tie-breaking), every carried position
indexes the carried tool in the catalog, and consequently the output itself
is sorted by descending score.  Determinism over identical inputs holds by
construction, the embedding being a pure function. -/
theorem claim2_sorted_stable_deterministic (q : String) (C : List Tool)
    (k : Int) :
    filter_relevant_tools q C k = (filterIdx q C k).map (fun p => p.2) ∧
    (filterIdx q C k).Pairwise (fun a b =>
      toolScore q b.2 < toolScore q a.2 ∨
        (toolScore q a.2 = toolScore q b.2 ∧ a.1 < b.1)) ∧
    (filterIdx q C k).Forall (fun p => C[p.1]? = some p.2) ∧
    (filter_relevant_tools q C k).Pairwise
      (fun a b => toolScore q b ≤ toolScore q a) := by
  have hproj := filter_eq_filterIdx q C k
  have hpair : (filterIdx q C k).Pairwise (fun a b =>
      toolScore q b.2 < toolScore q a.2 ∨
        (toolScore q a.2 = toolScore q b.2 ∧ a.1 < b.1)) := by
    by_cases hsc : scoredIdx q C = []
    · have hE : (scoredIdx q C).isEmpty = true := by rw [hsc]; rfl
      have hfi : filterIdx q C k = pyTake k (fbIdxAux 0 C) := by
        simp [filterIdx, hE]
      have hz : ∀ t ∈ C, toolScore q t = 0 :=
        (scored_nil_iff q C).mp ((scoredIdx_nil_iff q C).mp hsc)
      rw [hfi]
      have hidx : (pyTake k (fbIdxAux 0 C)).Pairwise
          (fun a b : Nat × Tool => a.1 < b.1) :=
        List.Pairwise.sublist (pyTake_sublist k _) (fbIdxAux_pairwise C 0)
      refine hidx.imp_of_mem ?_
      intro a b ha hb hab
      have haC : a.2 ∈ C := by
        have := (fbIdxAux_inv C 0 a ((pyTake_sublist k _).subset ha)).2.1
        rw [Nat.sub_zero] at this
        exact List.getElem?_mem this
      have hbC : b.2 ∈ C := by
        have := (fbIdxAux_inv C 0 b ((pyTake_sublist k _).subset hb)).2.1
        rw [Nat.sub_zero] at this
        exact List.getElem?_mem this
      exact Or.inr ⟨by rw [hz a.2 haC, hz b.2 hbC], hab⟩
    · have hE : (scoredIdx q C).isEmpty = false := by
        cases hs : scoredIdx q C with
        | nil => exact absurd hs hsc
        | cons x xs => rfl
      have hfi : filterIdx q C k
          = (pyTake k (sortDescBy (fun p => p.1) (scoredIdx q C))).map
              (fun p => (p.2.1, p.2.2)) := by
        simp [filterIdx, hE]
      rw [hfi, List.pairwise_map]
      have hPW : (pyTake k (sortDescBy (fun p : Nat × Nat × Tool => p.1)
          (scoredIdx q C))).Pairwise RLex :=
        List.Pairwise.sublist (pyTake_sublist k _)
          (pairwise_sort_lex (scoredIdxAux_pairwise _ _ C 0))
      refine hPW.imp_of_mem ?_
      intro a b ha hb hab
      have haI : a ∈ scoredIdx q C :=
        mem_sortDescBy ((pyTake_sublist k _).subset ha)
      have hbI : b ∈ scoredIdx q C :=
        mem_sortDescBy ((pyTake_sublist k _).subset hb)
      have hasc := (scoredIdx_inv q C a haI).1
      have hbsc := (scoredIdx_inv q C b hbI).1
      rcases hab with hlt | ⟨heq, hidx⟩
      · exact Or.inl (by rw [← hasc, ← hbsc]; exact hlt)
      · exact Or.inr ⟨by rw [← hasc, ← hbsc]; exact heq, hidx⟩
  have hvalid : (filterIdx q C k).Forall (fun p => C[p.1]? = some p.2) := by
    rw [List.forall_iff_forall_mem]
    intro p hp
    by_cases hsc : scoredIdx q C = []
    · have hE : (scoredIdx q C).isEmpty = true := by rw [hsc]; rfl
      have hfi : filterIdx q C k = pyTake k (fbIdxAux 0 C) := by
        simp [filterIdx, hE]
      rw [hfi] at hp
      have := (fbIdxAux_inv C 0 p ((pyTake_sublist k _).subset hp)).2.1
      rw [Nat.sub_zero] at this
      exact this
    · have hE : (scoredIdx q C).isEmpty = false := by
        cases hs : scoredIdx q C with
        | nil => exact absurd hs hsc
        | cons x xs => rfl
      have hfi : filterIdx q C k
          = (pyTake k (sortDescBy (fun p => p.1) (scoredIdx q C))).map
              (fun p => (p.2.1, p.2.2)) := by
        simp [filterIdx, hE]
      rw [hfi] at hp
      obtain ⟨a, ha, rfl⟩ := List.mem_map.mp hp
      have haI : a ∈ scoredIdx q C :=
        mem_sortDescBy ((pyTake_sublist k _).subset ha)
      exact (scoredIdx_inv q C a haI).2.2
  refine ⟨hproj, hpair, hvalid, ?_⟩
  rw [hproj, List.pairwise_map]
  refine hpair.imp ?_
  intro a b hab
  rcases hab with hlt | ⟨heq, _⟩
  · exact Nat.le_of_lt hlt
  · exact Nat.le_of_eq heq.symm

/-- Claim C6 counterexample: with query "list", both tools carry the query
keyword "list" (length ≥ 3) in their names and score equally (18), so no
tool scores strictly higher than `list_b`; yet with k = 1 the stable sort
keeps catalog order among ties and only `list_a` is returned — `list_b` is
not in the output although the claim asserts it is. -/
theorem claim6_counterexample :
    ("list" ∈ splitWs (lowerStr "list") ∧ 3 ≤ ("list" : String).length ∧
      strIn "list"
        (lowerStr ((⟨some "list_b", none, 1⟩ : Tool).name.getD "")) = true) ∧
    toolScore "list" ⟨some "list_a", none, 0⟩
      ≤ toolScore "list" ⟨some "list_b", none, 1⟩ ∧
    toolScore "list" ⟨some "list_b", none, 1⟩
      ≤ toolScore "list" ⟨some "list_b", none, 1⟩ ∧
    (⟨some "list_b", none, 1⟩ : Tool)
      ∉ filter_relevant_tools "list"
          [⟨some "list_a", none, 0⟩, ⟨some "list_b", none, 1⟩] 1 := by
  decide

/-- Claim C6 amended: if tool T's name contains a query keyword of length
at least 3, no tool of the catalog scores strictly higher than T, and no
tool preceding T in the catalog scores equal to T (T is the first
maximal-score tool), then T appears in the output whenever k ≥ 1. -/
theorem claim6_amended_top_scorer (q : String) (pre post : List Tool)
    (T : Tool) (k : Int) (tok : String)
    (hmem : tok ∈ splitWs (lowerStr q)) (hlen : 3 ≤ tok.length)
    (hin : strIn tok (lowerStr (T.name.getD "")) = true)
    (hmax : ∀ t ∈ pre ++ T :: post, toolScore q t ≤ toolScore q T)
    (hpre : ∀ t ∈ pre, toolScore q t < toolScore q T)
    (hk : 1 ≤ k) :
    T ∈ filter_relevant_tools q (pre ++ T :: post) k := by
  have hpos : 0 < toolScore q T := toolScore_pos_of_tok hmem hlen hin
  have hgetT : (pre ++ T :: post)[pre.length]? = some T := by
    rw [List.getElem?_append_right (Nat.le_refl _), Nat.sub_self]
    exact List.getElem?_cons_zero
  have hmemIdx : (toolScore q T, pre.length, T)
      ∈ scoredIdx q (pre ++ T :: post) := by
    have := mem_scoredIdxAux_of (lowerStr q) (splitWs (lowerStr q))
      (pre ++ T :: post) 0 pre.length T hgetT hpos
    rw [Nat.zero_add] at this
    exact this
  have hscne : scoredToolsList q (pre ++ T :: post) ≠ [] := by
    intro hnil
    have h0 := (scored_nil_iff q _).mp hnil T
      (List.mem_append_right _ (List.mem_cons_self _ _))
    omega
  have hPW : (sortDescBy (fun p : Nat × Nat × Tool => p.1)
      (scoredIdx q (pre ++ T :: post))).Pairwise RLex :=
    pairwise_sort_lex (scoredIdxAux_pairwise _ _ _ 0)
  have hmemL : (toolScore q T, pre.length, T)
      ∈ sortDescBy (fun p : Nat × Nat × Tool => p.1)
          (scoredIdx q (pre ++ T :: post)) :=
    (sortDescBy_perm _ _).mem_iff.mpr hmemIdx
  cases hLc : sortDescBy (fun p : Nat × Nat × Tool => p.1)
      (scoredIdx q (pre ++ T :: post)) with
  | nil =>
    rw [hLc] at hmemL
    exact absurd hmemL (List.not_mem_nil _)
  | cons hd tl =>
    rw [hLc] at hmemL hPW
    have hhd : hd = (toolScore q T, pre.length, T) := by
      rcases List.mem_cons.mp hmemL with he | htl
      · exact he.symm
      · rw [List.pairwise_cons] at hPW
        have hrel := hPW.1 _ htl
        have hdIn : hd ∈ scoredIdx q (pre ++ T :: post) :=
          (sortDescBy_perm _ _).mem_iff.mp
            (by rw [hLc]; exact List.mem_cons_self _ _)
        obtain ⟨hsc, _, hget⟩ := scoredIdx_inv q _ hd hdIn
        have hdC : hd.2.2 ∈ pre ++ T :: post := List.getElem?_mem hget
        have hle : toolScore q hd.2.2 ≤ toolScore q T := hmax _ hdC
        rcases hrel with hlt | ⟨heq, hidx⟩
        · exfalso
          have hlt' : toolScore q T < hd.1 := hlt
          omega
        · exfalso
          have hidx' : hd.2.1 < pre.length := hidx
          have heq' : hd.1 = toolScore q T := heq
          rw [List.getElem?_append] at hget
          rw [if_pos hidx'] at hget
          have hmempre : hd.2.2 ∈ pre := List.getElem?_mem hget
          have := hpre _ hmempre
          omega
    rw [filter_scored_branch hscne, ← scoredIdx_map, sortDescBy_map_fst,
      pyTake_map, hLc, hhd]
    exact List.mem_map_of_mem _
      (List.mem_map_of_mem _ (mem_pyTake_head hk _ tl))

theorem claim6_amended_top_scorer_witness :
    (⟨some "list_b", none, 1⟩ : Tool)
      ∈ filter_relevant_tools "list"
          (([] : List Tool) ++ (⟨some "list_b", none, 1⟩ : Tool)
            :: [⟨some "x", none, 0⟩]) 1 :=
  claim6_amended_top_scorer "list" [] [⟨some "x", none, 0⟩]
    ⟨some "list_b", none, 1⟩ 1 "list" (by decide) (by decide) (by decide)
    (by decide) (by decide) (by decide)

end ToolFilter
